import Mathlib

/-!
Verification of the mcp-goose job-execution and publishing subsystems.

This file shallowly embeds, in Lean, the data model and operations of:
* `src/jobs.js` — the bounded log ring buffer (`makeRingBuffer`), the job
  registry (`startJob`, `stopJob`, the `child.on('exit')` handler,
  `streamLogs`), modelled as pure state-passing functions;
* the argument sanitizer (`sanitizeArgs` with `ALLOWED_FLAGS` /
  `DISALLOWED_FLAGS`) of the server file;
* `src/publish.js` — branch slugging, target-directory resolution and the
  file-level write/delete footprint of `publishCurrentBranch`.

Bytes are modelled as `Nat`, buffers as `List Nat`, timestamps as `Nat`,
filesystem paths as lists of path segments (`List String`), and the
filesystem itself as a partial map from paths to file contents.
-/

namespace McpGoose

/-! ## Bounded log ring buffer (`makeRingBuffer` in src/jobs.js)

`append(chunk)`: concatenate, then if the length exceeds `maxBytes`,
keep only the last `maxBytes` bytes (`buffer.slice(buffer.length - maxBytes)`).
`read(offset, max)`: `start = min(offset, len)`, `end = min(start+max, len)`,
returns the slice `[start, end)`, `nextOffset = end`, `isEnd = end >= len`. -/

/-- One `append` step of the ring buffer: concatenation followed by the
sliding-window trim keeping the most recent `maxBytes` bytes.  Mirrors the
early return on an empty chunk. -/
def ringAppend (maxBytes : Nat) (buffer chunk : List Nat) : List Nat :=
  if chunk.length = 0 then buffer
  else
    let b := buffer ++ chunk
    if b.length > maxBytes then b.drop (b.length - maxBytes) else b

/-- The suffix of `l` of length `min l.length c` (the most recent `c` bytes). -/
def takeRight (c : Nat) (l : List Nat) : List Nat :=
  l.drop (l.length - c)

/-- Result record of `read` on a ring buffer / of `streamLogs`. -/
structure ReadResult where
  data : List Nat
  nextOffset : Nat
  isEnd : Bool
deriving DecidableEq, Repr

/-- The `read(offset, max)` operation of the ring buffer. -/
def ringRead (buffer : List Nat) (offset maxB : Nat) : ReadResult :=
  let s := min offset buffer.length
  let e := min (s + maxB) buffer.length
  { data := (buffer.take e).drop s
    nextOffset := e
    isEnd := decide (buffer.length ≤ e) }

/-- The successive `read` results obtained by starting at `offset` and
following `nextOffset` until a read reports `isEnd` (or fuel runs out). -/
def readSeq (buffer : List Nat) (maxB : Nat) : Nat → Nat → List ReadResult
  | 0, _ => []
  | fuel + 1, offset =>
    let r := ringRead buffer offset maxB
    if r.isEnd then [r] else r :: readSeq buffer maxB fuel r.nextOffset

/-! ## Job registry and process supervisor (src/jobs.js)

Mutable module state: `jobs` (a map from id to job record) and
`runningJobId` (the single concurrency slot).  We model the pair as an
explicit `RegState` threaded through the operations, ids as `Nat`, and
ISO timestamps as `Nat`. -/

/-- Job status strings of src/jobs.js. -/
inductive JStatus
  | running
  | completed
  | failed
  | canceled
deriving DecidableEq, Repr

/-- One job record (the fields the lifecycle logic reads or writes). -/
structure Job where
  status : JStatus
  exitCode : Option Int
  startedAt : Nat
  finishedAt : Option Nat
  cap : Nat
  stdout : List Nat
  stderr : List Nat
deriving DecidableEq, Repr

/-- The module-level mutable state of src/jobs.js: the `jobs` map (as an
association list) and the `runningJobId` slot. -/
structure RegState where
  jobs : List (Nat × Job)
  runningJobId : Option Nat
deriving DecidableEq, Repr

/-- Lookup `jobs.get(jobId)`. -/
def lookupJob : List (Nat × Job) → Nat → Option Job
  | [], _ => none
  | (k, v) :: rest, i => if k = i then some v else lookupJob rest i

/-- Update `jobs.set(jobId, job)`. -/
def setJob : List (Nat × Job) → Nat → Job → List (Nat × Job)
  | [], i, j => [(i, j)]
  | (k, v) :: rest, i, j =>
    if k = i then (i, j) :: rest else (k, v) :: setJob rest i j

/-- Result of `startJob`: the BUSY error or the new job's id. -/
inductive StartOutcome
  | busy
  | ok (jobId : Nat)
deriving DecidableEq, Repr

/-- Result of `stopJob`: `{ok: true}` or `{ok: false, reason}`. -/
inductive StopOutcome
  | ok
  | failed (reason : String)
deriving DecidableEq, Repr

/-- Operation `startJob`: throws BUSY if `runningJobId` is set; otherwise registers a
fresh `running` job with empty buffers and occupies the slot.  The fresh id
and the clock are passed in explicitly. -/
def startJob (s : RegState) (newId now cap : Nat) : RegState × StartOutcome :=
  if s.runningJobId.isSome then (s, .busy)
  else
    ({ jobs := setJob s.jobs newId
         { status := .running, exitCode := none, startedAt := now,
           finishedAt := none, cap := cap, stdout := [], stderr := [] }
       runningJobId := some newId },
     .ok newId)

/-- Operation `stopJob(jobId, signal)`: not-found and not-running checks, then
`process.kill` (whose success is the `killOk` input; on failure the catch
block returns `kill_failed` with no state change), then the optimistic
transition to `canceled` and the unconditional clearing of the slot. -/
def stopJob (s : RegState) (jobId : Nat) (killOk : Bool) (now : Nat) :
    RegState × StopOutcome :=
  match lookupJob s.jobs jobId with
  | none => (s, .failed "not_found")
  | some job =>
    if job.status ≠ .running then (s, .failed "not_running")
    else if killOk then
      ({ jobs := setJob s.jobs jobId
           { job with status := .canceled, finishedAt := some now }
         runningJobId := none },
       .ok)
    else (s, .failed "kill_failed")

/-- The `child.on('exit')` handler: records the exit code, sets the status
from the code (`completed` iff the code is 0, else `failed` — a `null` code
from a signal kill counts as failed), stamps `finishedAt`, and
unconditionally clears `runningJobId`. -/
def exitEvent (s : RegState) (jobId : Nat) (code : Option Int) (now : Nat) :
    RegState :=
  match lookupJob s.jobs jobId with
  | none => s
  | some job =>
    { jobs := setJob s.jobs jobId
        { job with
          exitCode := code
          status := if code = some 0 then .completed else .failed
          finishedAt := some now }
      runningJobId := none }

/-- Operation `streamLogs(jobId, which, offset, max)`: `null` for an unknown id, else
a `read` on the job's selected buffer. -/
def streamLogs (s : RegState) (jobId : Nat) (which : String)
    (offset maxB : Nat) : Option ReadResult :=
  match lookupJob s.jobs jobId with
  | none => none
  | some job =>
    some (ringRead (if which == "stderr" then job.stderr else job.stdout)
      offset maxB)

/-- External events driving the registry: `start` requests, `stop` requests
(with the kill outcome), and asynchronous subprocess exit events. -/
inductive JobEv
  | start (id now cap : Nat)
  | stop (id : Nat) (killOk : Bool) (now : Nat)
  | exited (id : Nat) (code : Option Int) (now : Nat)
deriving DecidableEq, Repr

/-- One event step on the registry state. -/
def stepEv (s : RegState) : JobEv → RegState
  | .start id now cap => (startJob s id now cap).1
  | .stop id killOk now => (stopJob s id killOk now).1
  | .exited id code now => exitEvent s id code now

/-- The registry state reached from the empty initial state by a sequence
of events. -/
def runEvs (evs : List JobEv) : RegState :=
  evs.foldl stepEv { jobs := [], runningJobId := none }

/-- Number of jobs whose status is `running`. -/
def countRunning (s : RegState) : Nat :=
  (s.jobs.filter (fun kv => kv.2.status == .running)).length

/-! ## Argument sanitizer (`sanitizeArgs` in the server file)

Per token, in source order: the shell-metacharacter regex test
`/[`|;&<>$\\]/`, then for tokens starting with `-` the `ALLOWED_FLAGS`
membership test, then the `DISALLOWED_FLAGS` membership test; a passing
token is pushed unchanged. -/

/-- Errors thrown by `sanitizeArgs`, by message. -/
inductive SanErr
  | unsafeToken (t : String)
  | flagNotAllowed (t : String)
  | flagDisallowed (t : String)
deriving DecidableEq, Repr

/-- The `ALLOWED_FLAGS` set (listed exactly as in the source, duplicates included;
the JS `Set` only changes membership lookup, not its result). -/
def ALLOWED_FLAGS : List String :=
  ["--recipe", "--instructions", "-i", "--text", "-t", "--no-session",
   "--name", "-n", "--resume", "-r", "--path", "-p",
   "--max-turns", "--explain", "--debug", "--provider", "--model",
   "--params", "--sub-recipe", "--with-builtin",
   "--verbose", "-v", "--format", "-f", "--ascending", "--id", "-n",
   "--name", "--path", "-p", "--output", "-o"]

/-- The `DISALLOWED_FLAGS` set. -/
def DISALLOWED_FLAGS : List String := ["--interactive", "-s"]

/-- The fixed shell-metacharacter set of the regex: backtick, pipe,
semicolon, ampersand, angle brackets, dollar sign, backslash. -/
def isMetaChar (c : Char) : Bool :=
  c == Char.ofNat 96 || c == '|' || c == ';' || c == '&' ||
  c == '<' || c == '>' || c == '$' || c == '\\'

/-- The regex test `/[`|;&<>$\\]/.test(a)`. -/
def hasMeta (a : String) : Bool := a.data.any isMetaChar

/-- The test `a.startsWith('-')`. -/
def startsWithDash (a : String) : Bool :=
  match a.data with
  | c :: _ => c == '-'
  | [] => false

/-- Function `sanitizeArgs`: validates tokens in order and returns them unchanged,
or throws at the first offending token. -/
def sanitizeArgs : List String → Except SanErr (List String)
  | [] => .ok []
  | a :: rest =>
    if hasMeta a then .error (.unsafeToken a)
    else if startsWithDash a && !(ALLOWED_FLAGS.contains a) then
      .error (.flagNotAllowed a)
    else if DISALLOWED_FLAGS.contains a then .error (.flagDisallowed a)
    else
      match sanitizeArgs rest with
      | .ok out => .ok (a :: out)
      | .error e => .error e

instance : DecidableEq (Except SanErr (List String)) := fun a b =>
  match a, b with
  | .ok x, .ok y =>
    if h : x = y then isTrue (by rw [h])
    else isFalse (fun hc => by cases hc; exact h rfl)
  | .error x, .error y =>
    if h : x = y then isTrue (by rw [h])
    else isFalse (fun hc => by cases hc; exact h rfl)
  | .ok _, .error _ => isFalse (fun hc => by cases hc)
  | .error _, .ok _ => isFalse (fun hc => by cases hc)

/-! ## Branch publisher (src/publish.js)

`resolveTargetDir`: the `main` branch publishes to the preview root itself,
any other branch to `<root>/.preview/<branchSlug(branch)>` (with Node's
`path.join` normalizing `.`, `..` and empty segments).  `rmDirContents`
deletes the target's entries except `skipNames` (which is `['.preview']`
exactly when publishing `main`); `copyDir` then copies the working tree,
skipping entries named `.git` at every level and skipping symbolic links.

Paths are lists of segments relative to the preview root; the filesystem is
a partial map from such paths to file contents. -/

/-- The character class `[A-Za-z0-9._-]` kept by `branchSlug`. -/
def slugKeep (c : Char) : Bool :=
  c.isAlphanum || c == '.' || c == '_' || c == '-'

/-- Function `branchSlug`: replace every character outside `[A-Za-z0-9._-]`
with an underscore. -/
def branchSlug (name : String) : String :=
  String.mk (name.data.map (fun c => if slugKeep c then c else '_'))

/-- A directory entry of the working tree: a regular file, a subdirectory,
or a symbolic link (whose target is irrelevant because `copyDir` skips it). -/
inductive Entry
  | file (content : String)
  | dir (entries : List (String × Entry))
  | link

mutual

/-- The files `copyDir` writes for one named entry, as paths relative to the
copy destination: regular files are copied, directories recursed into, and
symbolic links skipped. -/
def entryWrites (name : String) : Entry → List (List String × String)
  | .file c => [([name], c)]
  | .dir es => (dirWrites es).map (fun pc => (name :: pc.1, pc.2))
  | .link => []

/-- The files `copyDir` writes for a directory listing, skipping entries
named `.git` (the skip happens at every recursion level). -/
def dirWrites : List (String × Entry) → List (List String × String)
  | [] => []
  | (name, e) :: rest =>
    (if name == ".git" then [] else entryWrites name e) ++ dirWrites rest

end

/-- Computes `stripBase t p`: if `t` is a prefix of the segment path `p`, the
remainder of `p`; otherwise `none`.  This is the segment-level content of
`isSubPath` in src/publish.js (`rc == rp || rc.startsWith(rp + path.sep)`
on resolved paths). -/
def stripBase : List String → List String → Option (List String)
  | [], p => some p
  | _ :: _, [] => none
  | a :: t, b :: p => if a == b then stripBase t p else none

/-- The check `isSubPath(parent, child)` on resolved segment paths: `child` equals
`parent` or lies beneath it. -/
def isSubPath (parent child : List String) : Bool :=
  (stripBase parent child).isSome

/-- Whether `rmDirContents(target, skipNames)` removes the file at `p`:
`p` must lie strictly below `target` and its entry name directly under
`target` must not be in `skipNames`. -/
def deletesIn (t skip : List String) (p : List String) : Bool :=
  match stripBase t p with
  | some (n :: _) => !(skip.contains n)
  | _ => false

/-- Lookup of a path among the files written by a copy. -/
def lookupW : List (List String × String) → List String → Option String
  | [], _ => none
  | (q, c) :: rest, p => if q == p then some c else lookupW rest p

/-- Node `path.join`/`path.resolve` segment normalization relative to a
base directory: `.` and empty segments vanish, `..` pops one segment, and
the result is `none` when `..` would climb above the base (the case
`isSubPath` exists to reject). -/
def resolveSegs (segs : List String) : Option (List String) :=
  segs.foldl
    (fun acc? s =>
      acc?.bind (fun acc =>
        if s == "." || s == "" then some acc
        else if s == ".." then
          match acc with
          | [] => none
          | _ :: _ => some acc.dropLast
        else some (acc ++ [s])))
    (some [])

/-- The target `resolveTargetDir(previewRoot, branch)` as a path relative to the
preview root: the root itself for `main`, else the resolution of
`.preview/<branchSlug branch>`. -/
def resolveTarget (branch : String) : Option (List String) :=
  if branch == "main" then some []
  else resolveSegs [".preview", branchSlug branch]

/-- The file-level effect of `publishCurrentBranch` once the branch is
known: resolve the target (a `none` models the path-escape throw, before
any write or delete), clear the target's contents — preserving the
`.preview` entry exactly when publishing `main` — and copy the working
tree `src` into the target, copies overriding deletions at the same path. -/
def publishFS (branch : String) (src : List (String × Entry))
    (old : List String → Option String) :
    Option (List String → Option String) :=
  match resolveTarget branch with
  | none => none
  | some t =>
    let skip := if branch == "main" then [".preview"] else []
    let writes := (dirWrites src).map (fun pc => (t ++ pc.1, pc.2))
    some (fun p =>
      match lookupW writes p with
      | some c => some c
      | none => if deletesIn t skip p then none else old p)

/-- The published filesystem evaluated at one path (`none` when the publish
itself failed with the path-escape error). -/
def pubApply (branch : String) (src : List (String × Entry))
    (old : List String → Option String) (p : List String) :
    Option (Option String) :=
  (publishFS branch src old).map (fun f => f p)

/-- A one-file preview root used as a concrete evaluation point: a single
top-level file `index.html`. -/
def oldRootFS : List String → Option String := fun p =>
  if p == ["index.html"] then some "home" else none

/-! ## Concrete evaluation points -/

/-- A running job with some stdout bytes, for concrete evaluation. -/
def jobW : Job :=
  { status := .running, exitCode := none, startedAt := 0,
    finishedAt := none, cap := 10, stdout := [1, 2, 3], stderr := [] }

/-- A registry holding the single running job `jobW` under id 1. -/
def regW : RegState := { jobs := [(1, jobW)], runningJobId := some 1 }

/-- A completed job, for exercising the `not_running` stop path. -/
def jobDone : Job := { jobW with status := .completed, exitCode := some 0 }

/-- A registry holding only the finished job `jobDone` under id 2. -/
def regDone : RegState := { jobs := [(2, jobDone)], runningJobId := none }

/-- Event sequence exhibiting the stale-exit race: start job 1, stop it,
start job 2, then job 1's subprocess exit event arrives. -/
def evTrace1 : List JobEv :=
  [.start 1 0 10, .stop 1 true 1, .start 2 2 10, .exited 1 none 3]

/-- Event sequence: start job 1 and stop it (now `canceled`). -/
def evTrace2 : List JobEv := [.start 1 0 10, .stop 1 true 1]

/-- A working tree containing a top-level `.preview` directory. -/
def srcWithPreviewDir : List (String × Entry) :=
  [(".preview", .dir [("x", .file "new")])]

/-! ## Helper lemmas -/

theorem takeRight_length (c : Nat) (l : List Nat) :
    (takeRight c l).length = min l.length c := by
  simp [takeRight]
  omega

theorem ringAppend_eq_takeRight (c : Nat) (buf ch : List Nat)
    (h : buf.length ≤ c) : ringAppend c buf ch = takeRight c (buf ++ ch) := by
  unfold ringAppend takeRight
  split
  · next hch =>
    have hch' : ch = [] := List.length_eq_zero.mp hch
    subst hch'
    have h0 : buf.length - c = 0 := by omega
    simp [h0]
  · dsimp only
    split
    · rfl
    · next h2 =>
      have h0 : buf.length + ch.length - c = 0 := by
        simp only [List.length_append] at h2
        omega
      simp [h0]

theorem takeRight_append_takeRight (c : Nat) (l ch : List Nat) :
    takeRight c (takeRight c l ++ ch) = takeRight c (l ++ ch) := by
  unfold takeRight
  have hle : l.length - c ≤ l.length := Nat.sub_le _ _
  rw [← List.drop_append_of_le_length hle, List.drop_drop]
  congr 1
  simp
  omega

theorem foldl_ringAppend (c : Nat) (pre : List Nat) (chunks : List (List Nat)) :
    chunks.foldl (ringAppend c) (takeRight c pre)
      = takeRight c (pre ++ chunks.flatten) := by
  induction chunks generalizing pre with
  | nil => simp
  | cons ch chs ih =>
    simp only [List.foldl_cons]
    have hlen : (takeRight c pre).length ≤ c := by
      rw [takeRight_length]; omega
    rw [ringAppend_eq_takeRight c _ ch hlen, takeRight_append_takeRight,
      ih (pre ++ ch)]
    simp

/-- Key stream-reconstruction lemma for `readSeq`: with positive `maxB` and
enough fuel, the reads are nonempty, their data concatenates to
`buffer.drop offset`, and the last read reports `isEnd = true`. -/
theorem readSeq_spec (buffer : List Nat) (maxB : Nat) (hmax : 0 < maxB) :
    ∀ fuel offset, buffer.length - offset < fuel →
      readSeq buffer maxB fuel offset ≠ [] ∧
      ((readSeq buffer maxB fuel offset).map ReadResult.data).flatten
        = buffer.drop offset ∧
      (∀ r, (readSeq buffer maxB fuel offset).getLast? = some r →
        r.isEnd = true) := by
  intro fuel
  induction fuel with
  | zero => exact fun offset h => absurd h (Nat.not_lt_zero _)
  | succ fuel ih =>
    intro offset h
    by_cases hoff : buffer.length ≤ offset
    · have hs : min offset buffer.length = buffer.length :=
        Nat.min_eq_right hoff
      have he : min (buffer.length + maxB) buffer.length = buffer.length :=
        Nat.min_eq_right (Nat.le_add_right _ _)
      have hnil : buffer.drop offset = [] :=
        List.drop_eq_nil_iff.mpr hoff
      simp [readSeq, ringRead, hs, he, hnil]
    · push_neg at hoff
      have hs : min offset buffer.length = offset :=
        Nat.min_eq_left (Nat.le_of_lt hoff)
      by_cases hend : buffer.length ≤ offset + maxB
      · -- final chunk: the read reaches the end of the buffer
        have he : min (offset + maxB) buffer.length = buffer.length :=
          Nat.min_eq_right hend
        simp [readSeq, ringRead, hs, he]
      · -- middle chunk: recurse from `offset + maxB`
        push_neg at hend
        have he : min (offset + maxB) buffer.length = offset + maxB :=
          Nat.min_eq_left (Nat.le_of_lt hend)
        have hlt : ¬ buffer.length ≤ offset + maxB := Nat.not_le_of_lt hend
        obtain ⟨hne, hjoin, hlast⟩ :=
          ih (offset + maxB) (by omega)
        constructor
        · simp [readSeq, ringRead, hs, he, hlt]
        constructor
        · simp only [readSeq, ringRead, hs, he]
          simp only [hlt, decide_False, Bool.false_eq_true, if_false,
            List.map_cons, List.flatten_cons, hjoin]
          have hlen : offset ≤ (buffer.take (offset + maxB)).length := by
            simp
            omega
          calc (buffer.take (offset + maxB)).drop offset
                  ++ buffer.drop (offset + maxB)
              = (buffer.take (offset + maxB)
                  ++ buffer.drop (offset + maxB)).drop offset := by
                rw [List.drop_append_of_le_length hlen]
            _ = buffer.drop offset := by rw [List.take_append_drop]
        · intro r hr
          apply hlast
          rw [← hr]
          simp only [readSeq, ringRead, hs, he]
          simp only [hlt, decide_False, Bool.false_eq_true, if_false]
          match hrest : readSeq buffer maxB fuel (offset + maxB) with
          | [] => exact absurd hrest hne
          | b :: l => simp [List.getLast?_cons_cons]

theorem lookupJob_setJob_self (l : List (Nat × Job)) (i : Nat) (j : Job) :
    lookupJob (setJob l i j) i = some j := by
  induction l with
  | nil => simp [setJob, lookupJob]
  | cons kv rest ih =>
    by_cases hk : kv.1 = i
    · simp [setJob, hk, lookupJob]
    · simp [setJob, hk, lookupJob, ih]

/-- If `sanitizeArgs` succeeds then every token passed all three checks,
and the output is the input unchanged. -/
theorem sanitizeArgs_ok_inv (args out : List String)
    (h : sanitizeArgs args = .ok out) :
    out = args ∧ ∀ a ∈ args, hasMeta a = false ∧
      (startsWithDash a = true → a ∈ ALLOWED_FLAGS) ∧
      a ∉ DISALLOWED_FLAGS := by
  induction args generalizing out with
  | nil =>
    simp [sanitizeArgs] at h
    subst h
    simp
  | cons a rest ih =>
    by_cases h1 : hasMeta a = true
    · simp [sanitizeArgs, h1] at h
    · by_cases h2 : startsWithDash a = true ∧ a ∉ ALLOWED_FLAGS
      · simp [sanitizeArgs, h1, h2] at h
      · by_cases h3 : a ∈ DISALLOWED_FLAGS
        · simp [sanitizeArgs, h1, h2, h3] at h
        · push_neg at h2
          have hb1 : hasMeta a = false := by simpa using h1
          have hp2 : ¬(startsWithDash a = true ∧ a ∉ ALLOWED_FLAGS) :=
            fun hc => hc.2 (h2 hc.1)
          have hstep : sanitizeArgs (a :: rest) =
              match sanitizeArgs rest with
              | .ok out' => .ok (a :: out')
              | .error e => .error e := by
            simp [sanitizeArgs, hb1, hp2, h3]
          rw [hstep] at h
          match hrec : sanitizeArgs rest with
          | .error e => rw [hrec] at h; simp at h
          | .ok out' =>
            rw [hrec] at h
            simp only [Except.ok.injEq] at h
            obtain ⟨hout, hall⟩ := ih out' hrec
            subst hout
            refine ⟨h.symm, ?_⟩
            intro b hb
            rcases List.mem_cons.mp hb with hba | hbr
            · subst hba
              exact ⟨hb1, h2, h3⟩
            · exact hall b hbr

theorem stripBase_append (t q : List String) :
    stripBase t (t ++ q) = some q := by
  induction t with
  | nil => simp [stripBase]
  | cons a t ih => simp [stripBase, ih]

theorem ne_append_of_stripBase_none (t p q : List String)
    (h : stripBase t p = none) : t ++ q ≠ p := by
  intro hc
  rw [← hc, stripBase_append] at h
  exact Option.noConfusion h

theorem entryWrites_head (name : String) (e : Entry)
    (pc : List String × String) (h : pc ∈ entryWrites name e) :
    pc.1.head? = some name := by
  cases e with
  | file c => simp [entryWrites] at h; simp [h]
  | dir es =>
    simp only [entryWrites, List.mem_map] at h
    obtain ⟨q, _, hq⟩ := h
    simp [← hq]
  | link => simp [entryWrites] at h

theorem dirWrites_head (es : List (String × Entry))
    (pc : List String × String) (h : pc ∈ dirWrites es) :
    ∃ n e, (n, e) ∈ es ∧ pc.1.head? = some n := by
  induction es with
  | nil => simp [dirWrites] at h
  | cons ne rest ih =>
    obtain ⟨n, e⟩ := ne
    simp only [dirWrites, List.mem_append] at h
    rcases h with h | h
    · by_cases hg : (n == ".git") = true
      · simp [hg] at h
      · simp only [hg, Bool.false_eq_true, if_false] at h
        exact ⟨n, e, by simp, entryWrites_head n e pc h⟩
    · obtain ⟨n', e', hmem, hh⟩ := ih h
      exact ⟨n', e', by simp [hmem], hh⟩

theorem lookupW_eq_none (w : List (List String × String)) (p : List String)
    (h : ∀ pc ∈ w, pc.1 ≠ p) : lookupW w p = none := by
  induction w with
  | nil => rfl
  | cons qc rest ih =>
    have hq : ¬(qc.1 == p) = true := by
      simp only [beq_iff_eq]
      exact h qc (by simp)
    simp only [lookupW]
    rw [if_neg hq]
    exact ih (fun pc hpc => h pc (by simp [hpc]))

theorem isSubPath_append (root t : List String) :
    isSubPath root (root ++ t) = true := by
  simp [isSubPath, stripBase_append]

theorem deletesIn_of_stripBase_none (t skip p : List String)
    (h : stripBase t p = none) : deletesIn t skip p = false := by
  simp [deletesIn, h]

theorem pubApply_eq (b : String) (src : List (String × Entry))
    (old : List String → Option String) (p t : List String)
    (hres : resolveTarget b = some t) :
    pubApply b src old p = some
      (match lookupW ((dirWrites src).map (fun pc => (t ++ pc.1, pc.2)))
          p with
        | some c => some c
        | none =>
          if deletesIn t (if b == "main" then [".preview"] else []) p
          then none else old p) := by
  unfold pubApply publishFS
  rw [hres]
  rfl

/-! ## Claims -/

/-- C3: for every capacity C and every finite sequence of byte chunks
appended to a Log Buffer of capacity C, after all appends the buffer's
length is at most C and its content is the suffix of the concatenation of
all chunks of length min(totalLength, C). -/
theorem ringBuffer_bounded_suffix (c : Nat) (chunks : List (List Nat)) :
    (chunks.foldl (ringAppend c) []).length ≤ c ∧
    chunks.foldl (ringAppend c) []
      = chunks.flatten.drop
          (chunks.flatten.length - min chunks.flatten.length c) := by
  have h0 : takeRight c ([] : List Nat) = [] := by simp [takeRight]
  have h := foldl_ringAppend c [] chunks
  rw [h0, List.nil_append] at h
  have hidx : chunks.flatten.length - min chunks.flatten.length c
      = chunks.flatten.length - c := by omega
  constructor
  · rw [h, takeRight_length]; omega
  · rw [h, hidx]; rfl

/-- C4: for a job's unchanging buffer and positive `maxBytes`, `streamLogs`
reads are reads of the job's buffer, and iterating from offset 0 via the
returned `nextOffset` yields chunks concatenating to the full buffer with
no gaps or duplicates, the final call reporting `isEnd = true`. -/
theorem streamLogs_reconstructs (s : RegState) (id : Nat) (job : Job)
    (maxB : Nat) (hj : lookupJob s.jobs id = some job) (hm : 0 < maxB) :
    (∀ off, streamLogs s id "stdout" off maxB
        = some (ringRead job.stdout off maxB)) ∧
    readSeq job.stdout maxB (job.stdout.length + 1) 0 ≠ [] ∧
    ((readSeq job.stdout maxB (job.stdout.length + 1) 0).map
        ReadResult.data).flatten = job.stdout ∧
    (∀ r, (readSeq job.stdout maxB (job.stdout.length + 1) 0).getLast?
        = some r → r.isEnd = true) := by
  obtain ⟨h1, h2, h3⟩ :=
    readSeq_spec job.stdout maxB hm (job.stdout.length + 1) 0 (by omega)
  refine ⟨?_, h1, by simpa using h2, h3⟩
  intro off
  simp [streamLogs, hj]

theorem streamLogs_reconstructs_witness :
    lookupJob regW.jobs 1 = some jobW ∧ (0 : Nat) < 2 ∧
    streamLogs regW 1 "stdout" 0 2 = some (ringRead jobW.stdout 0 2) ∧
    ((readSeq jobW.stdout 2 (jobW.stdout.length + 1) 0).map
        ReadResult.data).flatten = jobW.stdout :=
  have h := streamLogs_reconstructs regW 1 jobW 2 rfl (by decide)
  ⟨rfl, by decide, h.1 0, h.2.2.1⟩

/-- C5: `stopJob` on a running job returns ok, transitions it to
`canceled`, clears the slot so a subsequent `startJob` immediately
succeeds; on an unknown id it fails `not_found` changing nothing; on a
known non-running job it fails `not_running` changing nothing. -/
theorem stopJob_spec :
    (∀ (s : RegState) (id now : Nat) (job : Job),
        lookupJob s.jobs id = some job → job.status = .running →
        (stopJob s id true now).2 = .ok ∧
        lookupJob (stopJob s id true now).1.jobs id
          = some { job with status := .canceled, finishedAt := some now } ∧
        (stopJob s id true now).1.runningJobId = none ∧
        ∀ nid t cap,
          (startJob (stopJob s id true now).1 nid t cap).2 = .ok nid) ∧
    (∀ (s : RegState) (id : Nat) (killOk : Bool) (now : Nat),
        lookupJob s.jobs id = none →
        stopJob s id killOk now = (s, .failed "not_found")) ∧
    (∀ (s : RegState) (id : Nat) (killOk : Bool) (now : Nat) (job : Job),
        lookupJob s.jobs id = some job → job.status ≠ .running →
        stopJob s id killOk now = (s, .failed "not_running")) := by
  refine ⟨?_, ?_, ?_⟩
  · intro s id now job hj hrun
    have hstep : stopJob s id true now =
        ({ jobs := setJob s.jobs id
             { job with status := .canceled, finishedAt := some now }
           runningJobId := none },
         .ok) := by
      simp [stopJob, hj, hrun]
    refine ⟨by rw [hstep], ?_, by rw [hstep], ?_⟩
    · rw [hstep]
      exact lookupJob_setJob_self _ _ _
    · intro nid t cap
      rw [hstep]
      simp [startJob]
  · intro s id killOk now hj
    simp [stopJob, hj]
  · intro s id killOk now job hj hrun
    simp [stopJob, hj, hrun]

theorem stopJob_spec_witness :
    (lookupJob regW.jobs 1 = some jobW ∧ jobW.status = .running ∧
      (stopJob regW 1 true 5).2 = .ok ∧
      (stopJob regW 1 true 5).1.runningJobId = none ∧
      (startJob (stopJob regW 1 true 5).1 9 6 10).2 = .ok 9) ∧
    (lookupJob regW.jobs 2 = none ∧
      stopJob regW 2 true 5 = (regW, .failed "not_found")) ∧
    (lookupJob regDone.jobs 2 = some jobDone ∧ jobDone.status ≠ .running ∧
      stopJob regDone 2 true 5 = (regDone, .failed "not_running")) :=
  have h1 := stopJob_spec.1 regW 1 5 jobW rfl rfl
  have h2 := stopJob_spec.2.1 regW 2 true 5 rfl
  have h3 := stopJob_spec.2.2 regDone 2 true 5 jobDone rfl (by decide)
  ⟨⟨rfl, rfl, h1.1, h1.2.2.1, h1.2.2.2 9 6 10⟩,
   ⟨rfl, h2⟩,
   ⟨rfl, by decide, h3⟩⟩

/-- C10: if signal delivery fails, `stopJob` returns `kill_failed` and the
whole registry state is unchanged: the job record (status, finish
timestamp) is untouched and the running slot keeps its previous value. -/
theorem stopJob_killFail_atomic (s : RegState) (id now : Nat) (job : Job)
    (hj : lookupJob s.jobs id = some job) (hrun : job.status = .running) :
    stopJob s id false now = (s, .failed "kill_failed") ∧
    lookupJob (stopJob s id false now).1.jobs id = some job ∧
    (stopJob s id false now).1.runningJobId = s.runningJobId ∧
    (s.runningJobId = some id →
      (stopJob s id false now).1.runningJobId = some id) := by
  have hstep : stopJob s id false now = (s, .failed "kill_failed") := by
    simp [stopJob, hj, hrun]
  exact ⟨hstep, by rw [hstep]; exact hj, by rw [hstep],
    fun hs => by rw [hstep]; exact hs⟩

theorem stopJob_killFail_atomic_witness :
    lookupJob regW.jobs 1 = some jobW ∧ jobW.status = .running ∧
    stopJob regW 1 false 7 = (regW, .failed "kill_failed") ∧
    (stopJob regW 1 false 7).1.runningJobId = some 1 :=
  have h := stopJob_killFail_atomic regW 1 7 jobW rfl rfl
  ⟨rfl, rfl, h.1, h.2.2.2 rfl⟩

/-- C1, evaluated at the failing event sequence: after start(1), stop(1),
start(2), the stale exit event of job 1 unconditionally clears the running
slot while job 2 is still `running`, so a further start succeeds and the
registry then holds two jobs in `running` state — contradicting both the
at-most-one-running invariant and the claim that `start` while a job is
`running` fails with Busy. -/
theorem twoRunningJobs_eval :
    (lookupJob (runEvs evTrace1).jobs 2).map Job.status
      = some JStatus.running ∧
    (runEvs evTrace1).runningJobId = none ∧
    (startJob (runEvs evTrace1) 3 4 10).2 = .ok 3 ∧
    countRunning (startJob (runEvs evTrace1) 3 4 10).1 = 2 := by decide

/-- C2, evaluated at the failing event sequence: stopping job 1 puts it in
the terminal status `canceled`, but the later subprocess exit event (exit
code `null` after the kill) overwrites its status to `failed` — a terminal
status transitions again. -/
theorem canceledThenFailed_eval :
    (lookupJob (runEvs evTrace2).jobs 1).map Job.status
      = some JStatus.canceled ∧
    (lookupJob (exitEvent (runEvs evTrace2) 1 none 3).jobs 1).map Job.status
      = some JStatus.failed := by decide

/-- C6: the sanitizer fails for any token containing a shell metacharacter
and for any token equal to a denylisted flag; and when every flag-prefixed
token is allowlisted and no token contains a metacharacter, it returns the
same sequence unchanged and in order. -/
theorem sanitizeArgs_spec :
    (∀ (args : List String) (a : String), a ∈ args → hasMeta a = true →
        ∃ e, sanitizeArgs args = .error e) ∧
    (∀ (args : List String) (a : String), a ∈ args →
        a ∈ DISALLOWED_FLAGS → ∃ e, sanitizeArgs args = .error e) ∧
    (∀ args : List String,
        (∀ a ∈ args, hasMeta a = false) →
        (∀ a ∈ args, startsWithDash a = true → a ∈ ALLOWED_FLAGS) →
        sanitizeArgs args = .ok args) := by
  have hdisj : ∀ x ∈ DISALLOWED_FLAGS,
      startsWithDash x = true ∧ x ∉ ALLOWED_FLAGS := by decide
  refine ⟨?_, ?_, ?_⟩
  · intro args a hmem hmeta
    cases hres : sanitizeArgs args with
    | error e => exact ⟨e, rfl⟩
    | ok out =>
      obtain ⟨-, hall⟩ := sanitizeArgs_ok_inv args out hres
      have := (hall a hmem).1
      rw [hmeta] at this
      exact absurd this (by simp)
  · intro args a hmem hdis
    cases hres : sanitizeArgs args with
    | error e => exact ⟨e, rfl⟩
    | ok out =>
      obtain ⟨-, hall⟩ := sanitizeArgs_ok_inv args out hres
      exact absurd hdis (hall a hmem).2.2
  · intro args hmetas hflags
    induction args with
    | nil => rfl
    | cons a rest ih =>
      have hb1 : hasMeta a = false := hmetas a (by simp)
      have h2 : startsWithDash a = true → a ∈ ALLOWED_FLAGS :=
        hflags a (by simp)
      have hp2 : ¬(startsWithDash a = true ∧ a ∉ ALLOWED_FLAGS) :=
        fun hc => hc.2 (h2 hc.1)
      have h3 : a ∉ DISALLOWED_FLAGS :=
        fun hd => (hdisj a hd).2 (h2 (hdisj a hd).1)
      have hstep : sanitizeArgs (a :: rest) =
          match sanitizeArgs rest with
          | .ok out' => .ok (a :: out')
          | .error e => .error e := by
        simp [sanitizeArgs, hb1, hp2, h3]
      rw [hstep,
        ih (fun b hb => hmetas b (by simp [hb]))
          (fun b hb => hflags b (by simp [hb]))]

theorem sanitizeArgs_spec_witness :
    sanitizeArgs ["--recipe", "demo.yaml"] = .ok ["--recipe", "demo.yaml"] ∧
    (∃ e, sanitizeArgs ["x;y"] = .error e) ∧
    (∃ e, sanitizeArgs ["-s"] = .error e) :=
  ⟨sanitizeArgs_spec.2.2 ["--recipe", "demo.yaml"] (by decide) (by decide),
   sanitizeArgs_spec.1 ["x;y"] "x;y" (by decide) (by decide),
   sanitizeArgs_spec.2.1 ["-s"] "-s" (by decide) (by decide)⟩

/-- C7 counterexample: both denylisted flags are rejected by the earlier
allowlist check, so the error is `flagNotAllowed`, not `flagDisallowed` as
the claim states. -/
theorem denylist_error_counterexample :
    sanitizeArgs ["--interactive"]
      = .error (.flagNotAllowed "--interactive") ∧
    sanitizeArgs ["--interactive"]
      ≠ .error (.flagDisallowed "--interactive") ∧
    sanitizeArgs ["-s"] = .error (.flagNotAllowed "-s") ∧
    sanitizeArgs ["-s"] ≠ .error (.flagDisallowed "-s") := by decide

/-- C7 amended: every token matching the denylist is rejected, but with the
`flag not allowed` error, because the allowlist check runs first and
neither denylisted flag is in the allowlist; the `flag disallowed` branch
is unreachable for these tokens. -/
theorem denylist_rejected_flagNotAllowed (t : String) (rest : List String)
    (h : t ∈ DISALLOWED_FLAGS) :
    sanitizeArgs (t :: rest) = .error (.flagNotAllowed t) := by
  have ht : t = "--interactive" ∨ t = "-s" := by
    simpa [DISALLOWED_FLAGS] using h
  rcases ht with ht | ht <;> subst ht <;>
    (simp only [sanitizeArgs]
     rw [if_neg (by decide), if_pos (by decide)])

theorem denylist_rejected_flagNotAllowed_witness :
    "-s" ∈ DISALLOWED_FLAGS ∧
    sanitizeArgs ["-s", "run"] = .error (.flagNotAllowed "-s") :=
  ⟨by decide, denylist_rejected_flagNotAllowed "-s" ["run"] (by decide)⟩

/-- C8 counterexample: publishing branch `".."` (slug `".."`, so the target
resolves back to the preview root itself) deletes the root's top-level
file; and publishing `main` from a working tree containing a top-level
`.preview` directory writes into the namespaced `.preview` subtree. -/
theorem publish_frame_counterexample :
    pubApply ".." [] oldRootFS ["index.html"] = some none ∧
    oldRootFS ["index.html"] = some "home" ∧
    ".." ≠ "main" ∧
    pubApply "main" srcWithPreviewDir oldRootFS [".preview", "x"]
      = some (some "new") ∧
    oldRootFS [".preview", "x"] = none := by decide

/-- C8 amended: publishing `main` never deletes anything under `.preview`,
and leaves the `.preview` subtree unchanged provided the working tree has
no top-level `.preview` entry; publishing a branch other than `main` whose
slug resolves to a genuine subdirectory (slug not `.`, `..` or empty)
changes nothing outside `<root>/.preview/<slug>`, in particular leaving the
root's top-level files unchanged. -/
theorem publish_frame_amended :
    (∀ rest : List String,
        deletesIn [] [".preview"] (".preview" :: rest) = false) ∧
    (∀ (src : List (String × Entry)) (old : List String → Option String)
        (rest : List String),
        (∀ ne ∈ src, ne.1 ≠ ".preview") →
        pubApply "main" src old (".preview" :: rest)
          = some (old (".preview" :: rest))) ∧
    (∀ (b : String) (src : List (String × Entry))
        (old : List String → Option String) (p : List String),
        b ≠ "main" →
        resolveTarget b = some [".preview", branchSlug b] →
        stripBase [".preview", branchSlug b] p = none →
        pubApply b src old p = some (old p)) := by
  have hdel : ∀ rest : List String,
      deletesIn [] [".preview"] (".preview" :: rest) = false := by
    intro rest
    simp [deletesIn, stripBase]
  refine ⟨hdel, ?_, ?_⟩
  · intro src old rest hsrc
    have hres : resolveTarget "main" = some [] := by decide
    have hlook : lookupW ((dirWrites src).map
          (fun pc => (([] : List String) ++ pc.1, pc.2)))
        (".preview" :: rest) = none := by
      apply lookupW_eq_none
      intro pc hpc
      simp only [List.mem_map] at hpc
      obtain ⟨q, hq, hqe⟩ := hpc
      obtain ⟨n, e, hmem, hhead⟩ := dirWrites_head src q hq
      intro hc
      rw [← hqe] at hc
      simp only [List.nil_append] at hc
      have hh : q.1.head? = some ".preview" := by rw [hc]; rfl
      rw [hhead] at hh
      have hn : n = ".preview" := by simpa using hh
      exact hsrc (n, e) hmem hn
    rw [pubApply_eq "main" src old (".preview" :: rest) [] hres, hlook]
    simp [hdel rest]
  · intro b src old p hb hres hstrip
    have hlook : lookupW ((dirWrites src).map
          (fun pc => ([".preview", branchSlug b] ++ pc.1, pc.2))) p
        = none := by
      apply lookupW_eq_none
      intro pc hpc
      simp only [List.mem_map] at hpc
      obtain ⟨q, hq, hqe⟩ := hpc
      rw [← hqe]
      exact ne_append_of_stripBase_none _ _ _ hstrip
    rw [pubApply_eq b src old p [".preview", branchSlug b] hres, hlook]
    simp [deletesIn_of_stripBase_none _ _ _ hstrip]

theorem publish_frame_amended_witness :
    (∀ ne ∈ [("index.html", Entry.file "v2")],
        (ne : String × Entry).1 ≠ ".preview") ∧
    pubApply "main" [("index.html", Entry.file "v2")] oldRootFS
      [".preview", "x"] = some (oldRootFS [".preview", "x"]) ∧
    "feature/x" ≠ "main" ∧
    pubApply "feature/x" [("a.txt", Entry.file "a")] oldRootFS
      ["index.html"] = some (oldRootFS ["index.html"]) :=
  ⟨by simp,
   publish_frame_amended.2.1 [("index.html", Entry.file "v2")] oldRootFS
     ["x"] (by simp),
   by simp,
   publish_frame_amended.2.2 "feature/x" [("a.txt", Entry.file "a")]
     oldRootFS ["index.html"] (by simp) (by decide) (by decide)⟩

/-- C9: for every branch name, including ones containing path-traversal
sequences before slugging, the computed target directory resolves to a
descendant of (or equal to) the preview root — the publish never needs to
write outside the root, and the `isSubPath` guard passes. -/
theorem publish_target_contained (branch : String) (root : List String) :
    ∃ t, resolveTarget branch = some t ∧ isSubPath root (root ++ t) = true := by
  by_cases hb : (branch == "main") = true
  · exact ⟨[], by simp [resolveTarget, hb], isSubPath_append root []⟩
  · have hstep : resolveTarget branch
        = resolveSegs [".preview", branchSlug branch] := by
      simp [resolveTarget, hb]
    set s := branchSlug branch with hs
    have h1 : resolveSegs [".preview", s]
        = if (s == "." || s == "") = true then some [".preview"]
          else if (s == "..") = true then some ([".preview"].dropLast)
          else some ([".preview"] ++ [s]) := by
      simp only [resolveSegs, List.foldl_cons, List.foldl_nil]
      rfl
    rw [hstep, h1]
    by_cases hc1 : (s == "." || s == "") = true
    · exact ⟨[".preview"], by rw [if_pos hc1], isSubPath_append root _⟩
    · by_cases hc2 : (s == "..") = true
      · exact ⟨[], by rw [if_neg hc1, if_pos hc2]; rfl,
          isSubPath_append root _⟩
      · exact ⟨[".preview", s], by rw [if_neg hc1, if_neg hc2]; rfl,
          isSubPath_append root _⟩

end McpGoose
